import Mathlib

/-!
# Verification of the libmonero cryptographic core

Shallow embedding of the cryptographic core of the libmonero library
(CryptoNight slow hash, mnemonic codec, key and address derivation) and
proofs about it.  Machine integers are represented as `Nat` with explicit
`% 2 ^ 64` (resp. `% 2 ^ 32`, `% 256`) wherever overflow matters; byte
strings are `List Nat`, text strings are `List Char`; fallible code
returns `Option`.

Components of the repository whose source file is not available (the AES
helpers `aesu.rs`, the word lists, `ed25519.rs`, and the external crates
`crc32fast`, `sha3`, `base58-monero`) are modelled from the specification;
each such definition says so in its doc comment.
-/

set_option maxRecDepth 10000

/-! ## Bytes, little-endian values, hex rendering -/

/-- Little-endian value of a byte list (least significant byte first),
as in Rust `u64::from_le_bytes` and friends. -/
def leVal (l : List Nat) : Nat := l.foldr (fun b acc => b + 256 * acc) 0

/-- The `k` little-endian bytes of `n` (as in Rust `to_le_bytes`). -/
def leBytesN (k n : Nat) : List Nat := (List.range k).map (fun i => n / 256 ^ i % 256)

/-- Lowercase hex digit character for a nibble `d < 16`. -/
def hexChar (d : Nat) : Char := if d < 10 then Char.ofNat (48 + d) else Char.ofNat (87 + d)

/-- The two lowercase hex characters of a byte: Rust `format!("{:02x}", b)` for `b < 256`. -/
def byteToHex2 (b : Nat) : List Char := [hexChar (b / 16 % 16), hexChar (b % 16)]

/-- Hex rendering of a byte list, one byte at a time, as done by the
`push_str(&format!("{:02x}", byte))` loops in `keys.rs` and `slow_hash.rs`. -/
def renderBytesHex (bs : List Nat) : List Char := (bs.map byteToHex2).flatten

/-- A character is a lowercase hex digit. -/
def isLowerHexDigit (c : Char) : Bool := "0123456789abcdef".toList.contains c

/-- Value of a single hex digit character, `none` for non-hex characters,
as in the `hex` crate used by `keys.rs`. -/
def hexNibble (c : Char) : Option Nat :=
  if 48 ≤ c.toNat ∧ c.toNat ≤ 57 then some (c.toNat - 48)
  else if 97 ≤ c.toNat ∧ c.toNat ≤ 102 then some (c.toNat - 87)
  else if 65 ≤ c.toNat ∧ c.toNat ≤ 70 then some (c.toNat - 55)
  else none

/-- Decode a hex string into bytes; `none` on odd length or a non-hex
character, as in `hex::decode` used throughout `keys.rs`. -/
def hexDecode : List Char → Option (List Nat)
  | [] => some []
  | [_] => none
  | c1 :: c2 :: rest => do
    let h ← hexNibble c1
    let l ← hexNibble c2
    let r ← hexDecode rest
    some ((16 * h + l) :: r)

/-- Big-endian hex digits of `n` (empty for `0`), with a structural fuel
argument so that the kernel can evaluate it; `fuel ≥ n` suffices. -/
def hexDigitsAux : Nat → Nat → List Char
  | 0, _ => []
  | fuel + 1, n => if n = 0 then [] else hexDigitsAux fuel (n / 16) ++ [hexChar (n % 16)]

/-- Hex rendering of `n`, zero-padded on the left to at least 8 digits:
Rust `format!("{:08x}", n)`.  For `n ≥ 2 ^ 32` this has more than 8 digits. -/
def hexMin8 (n : Nat) : List Char := List.leftpad 8 (Char.ofNat 48) (hexDigitsAux n n)

/-- Exactly `k` big-endian hex digits of `n` (most significant first). -/
def nibsBE : Nat → Nat → List Char
  | 0, _ => []
  | k + 1, n => nibsBE k (n / 16) ++ [hexChar (n % 16)]

/-! ## Mnemonic codec (`keys.rs`) -/

/-- Slice `l[a..b]` of a character list, as Rust string slicing on ASCII data. -/
def sliceL (l : List Char) (a b : Nat) : List Char := (l.drop a).take (b - a)

/-- Embedding of `swap_endian_4_byte` (`keys.rs` lines 114-116):
`format!("{}{}{}{}", &s[6..8], &s[4..6], &s[2..4], &s[0..2])`. -/
def swap_endian_4_byte (s : List Char) : List Char :=
  sliceL s 6 8 ++ sliceL s 4 6 ++ sliceL s 2 4 ++ sliceL s 0 2

/-- The decoded value of one word-index triple as computed in
`derive_hex_seed` (`keys.rs` lines 189-191), for dictionary size `L`. -/
def tripleXL (L w1 w2 w3 : Nat) : Nat :=
  w1 + L * ((L - w1 + w2) % L) + L * L * ((L - w2 + w3) % L)

/-- `tripleXL` specialized to the 1626-word dictionaries. -/
def tripleX (w1 w2 w3 : Nat) : Nat := tripleXL 1626 w1 w2 w3

/-- The 8 characters emitted by `derive_hex_seed` for one resolved triple:
`swap_endian_4_byte(&format!("{:08x}", x))`. -/
def tripleContributionL (L w1 w2 w3 : Nat) : List Char :=
  swap_endian_4_byte (hexMin8 (tripleXL L w1 w2 w3))

/-- The emission described by the specification: the 8 hex chars of `x`
pairwise byte-swapped (`HHGGFFEE` emitted as `EEFFGGHH`), i.e. the
little-endian byte-by-byte hex rendering of `x` as a 32-bit value. -/
def specTripleEmission (x : Nat) : List Char :=
  byteToHex2 (x % 256) ++ byteToHex2 (x / 256 % 256) ++
    byteToHex2 (x / 65536 % 256) ++ byteToHex2 (x / 16777216 % 256)

/-- A wordset, as in `wordsets.rs`: a language tag, a prefix length and a
list of words.  Words are byte strings (UTF-8); the real dictionaries
(not part of the available sources) have 1626 words each. -/
structure MWordset where
  name : List Char
  prefixLen : Nat
  words : List (List Nat)

/-- Resolve one mnemonic word to its dictionary position, as in
`derive_hex_seed` (`keys.rs` lines 157-187): whole-word position when
`prefix_len` is zero, otherwise the position of the first truncated
dictionary word starting with the word's prefix. -/
def resolveWord (ws : MWordset) (w : List Nat) : Option Nat :=
  if ws.prefixLen = 0 then
    ws.words.findIdx? (fun x => x == w)
  else
    (ws.words.map (fun x => x.take ws.prefixLen)).findIdx?
      (fun t => (w.take ws.prefixLen).isPrefixOf t)

/-- The triple loop of `derive_hex_seed` (`keys.rs` lines 156-197):
resolve three words at a time, compute `x`, perform the integrity check
`x % wordset_len == w1`, and emit the byte-swapped 8-hex-digit chunk.
A leftover of one or two words corresponds to the out-of-bounds panic of
the source.  -/
def decodeTriples (ws : MWordset) : List (List Nat) → Option (List Char)
  | [] => some []
  | w1 :: w2 :: w3 :: rest => do
    let r1 ← resolveWord ws w1
    let r2 ← resolveWord ws w2
    let r3 ← resolveWord ws w3
    let L := ws.words.length
    let x := tripleXL L r1 r2 r3
    if x % L = r1 then do
      let tail ← decodeTriples ws rest
      some (swap_endian_4_byte (hexMin8 x) ++ tail)
    else none
  | _ => none

/-- Embedding of `derive_hex_seed` (`keys.rs` lines 119-200), for a fixed
wordset (the source scans the static wordset table for one containing
every input word; the table contents are not part of the available
sources).  The checksum word is dropped when `prefix_len > 0`. -/
def derive_hex_seed (ws : MWordset) (seed : List (List Nat)) : Option (List Char) :=
  if seed.all (fun w => ws.words.contains w) then
    decodeTriples ws (if 0 < ws.prefixLen then seed.dropLast else seed)
  else none

/-! ## Helper lemmas on hex rendering -/

theorem hexDigitsAux_congr : ∀ f1 f2 n, n ≤ f1 → n ≤ f2 →
    hexDigitsAux f1 n = hexDigitsAux f2 n := by
  intro f1
  induction f1 using Nat.strong_induction_on with
  | _ f1 ih =>
    intro f2 n h1 h2
    match f1, f2 with
    | 0, f2 =>
      interval_cases n
      cases f2 <;> simp [hexDigitsAux]
    | f1 + 1, 0 =>
      interval_cases n
      simp [hexDigitsAux]
    | f1 + 1, f2 + 1 =>
      simp only [hexDigitsAux]
      by_cases hn : n = 0
      · simp [hn]
      · simp only [hn, if_false]
        have hd : n / 16 < n := Nat.div_lt_self (Nat.pos_of_ne_zero hn) (by omega)
        rw [ih f1 (by omega) f2 (n / 16) (by omega) (by omega)]

theorem hexDigitsAux_len : ∀ k n fuel, n < 16 ^ k → (hexDigitsAux fuel n).length ≤ k := by
  intro k
  induction k with
  | zero =>
    intro n fuel h
    interval_cases n
    cases fuel <;> simp [hexDigitsAux]
  | succ k ih =>
    intro n fuel h
    cases fuel with
    | zero => simp [hexDigitsAux]
    | succ fuel =>
      simp only [hexDigitsAux]
      by_cases hn : n = 0
      · simp [hn]
      · simp only [hn, if_false, List.length_append, List.length_cons, List.length_nil]
        have : n / 16 < 16 ^ k := by
          rw [Nat.div_lt_iff_lt_mul (by omega)]
          calc n < 16 ^ (k + 1) := h
          _ = 16 ^ k * 16 := by ring
        have := ih (n / 16) fuel this
        omega

theorem nibsBE_zero : ∀ k, nibsBE k 0 = List.replicate k (Char.ofNat 48) := by
  intro k
  induction k with
  | zero => simp [nibsBE]
  | succ k ih =>
    simp only [nibsBE, Nat.zero_div, ih]
    have : hexChar (0 % 16) = Char.ofNat 48 := by decide
    rw [this, ← List.replicate_succ']

theorem leftpad_hexDigits_eq_nibsBE : ∀ k n fuel, n < 16 ^ k → n ≤ fuel →
    List.leftpad k (Char.ofNat 48) (hexDigitsAux fuel n) = nibsBE k n := by
  intro k
  induction k with
  | zero =>
    intro n fuel h _
    interval_cases n
    cases fuel <;> simp [hexDigitsAux, nibsBE, List.leftpad]
  | succ k ih =>
    intro n fuel h hf
    by_cases hn : n = 0
    · subst hn
      have hz : ∀ f, hexDigitsAux f 0 = [] := by intro f; cases f <;> simp [hexDigitsAux]
      rw [hz, nibsBE_zero]
      simp [List.leftpad]
    · have hfuel : fuel ≠ 0 := by omega
      obtain ⟨f, rfl⟩ := Nat.exists_eq_succ_of_ne_zero hfuel
      simp only [hexDigitsAux, hn, if_false]
      have hrec : n / 16 < 16 ^ k := by
        rw [Nat.div_lt_iff_lt_mul (by omega)]
        calc n < 16 ^ (k + 1) := h
        _ = 16 ^ k * 16 := by ring
      have hlen : (hexDigitsAux f (n / 16)).length ≤ k := hexDigitsAux_len k (n / 16) f hrec
      have hfr : n / 16 ≤ f := by
        have : n / 16 < n := Nat.div_lt_self (Nat.pos_of_ne_zero hn) (by omega)
        omega
      have := ih (n / 16) f hrec hfr
      simp only [nibsBE, ← this, List.leftpad]
      simp only [List.length_append, List.length_cons, List.length_nil]
      rw [show k + 1 - ((hexDigitsAux f (n / 16)).length + 1) =
        k - (hexDigitsAux f (n / 16)).length by omega]
      simp [List.append_assoc]

theorem hexMin8_eq_nibsBE (n : Nat) (h : n < 2 ^ 32) : hexMin8 n = nibsBE 8 n := by
  unfold hexMin8
  exact leftpad_hexDigits_eq_nibsBE 8 n n (by norm_num at h ⊢; omega) (Nat.le_refl n)

/-- For values fitting in 32 bits, the code's emission (byte-swap of the
8-digit zero-padded hex string) equals the specification's little-endian
byte rendering. -/
theorem swap_hexMin8_eq_spec (x : Nat) (h : x < 2 ^ 32) :
    swap_endian_4_byte (hexMin8 x) = specTripleEmission x := by
  rw [hexMin8_eq_nibsBE x h]
  have e : nibsBE 8 x = [hexChar (x / 268435456 % 16), hexChar (x / 16777216 % 16),
      hexChar (x / 1048576 % 16), hexChar (x / 65536 % 16), hexChar (x / 4096 % 16),
      hexChar (x / 256 % 16), hexChar (x / 16 % 16), hexChar (x % 16)] := by
    simp [nibsBE, Nat.div_div_eq_div_mul]
  rw [e]
  show [hexChar (x / 16 % 16), hexChar (x % 16), hexChar (x / 4096 % 16), hexChar (x / 256 % 16),
      hexChar (x / 1048576 % 16), hexChar (x / 65536 % 16), hexChar (x / 268435456 % 16),
      hexChar (x / 16777216 % 16)] = specTripleEmission x
  simp only [specTripleEmission, byteToHex2, List.cons_append, List.nil_append, List.cons.injEq,
    and_true]
  exact ⟨congrArg hexChar (by omega), congrArg hexChar (by omega), congrArg hexChar (by omega),
    congrArg hexChar (by omega), congrArg hexChar (by omega), congrArg hexChar (by omega),
    congrArg hexChar (by omega), congrArg hexChar (by omega)⟩

theorem hexMin8_len (n : Nat) : 8 ≤ (hexMin8 n).length := by
  simp only [hexMin8, List.leftpad_length]
  omega

theorem swap_endian_len (s : List Char) (h : 8 ≤ s.length) :
    (swap_endian_4_byte s).length = 8 := by
  simp only [swap_endian_4_byte, sliceL, List.length_append, List.length_take, List.length_drop]
  omega

theorem resolveWord_lt (ws : MWordset) (w : List Nat) (r : Nat)
    (h : resolveWord ws w = some r) : r < ws.words.length := by
  unfold resolveWord at h
  by_cases hp : ws.prefixLen = 0
  · simp only [hp, if_true] at h
    exact (List.findIdx?_eq_some_iff_findIdx_eq.mp h).1
  · simp only [hp, if_false] at h
    have := (List.findIdx?_eq_some_iff_findIdx_eq.mp h).1
    simpa using this

theorem tripleXL_mod (L r1 r2 r3 : Nat) (h : r1 < L) : tripleXL L r1 r2 r3 % L = r1 := by
  have e : tripleXL L r1 r2 r3 =
      r1 + L * (((L - r1 + r2) % L) + L * ((L - r2 + r3) % L)) := by
    unfold tripleXL; ring
  rw [e, Nat.add_mul_mod_self_left, Nat.mod_eq_of_lt h]

theorem decodeTriples_check_passes (ws : MWordset) (w1 w2 w3 : List Nat)
    (rest : List (List Nat)) (r1 r2 r3 : Nat)
    (h1 : resolveWord ws w1 = some r1) (h2 : resolveWord ws w2 = some r2)
    (h3 : resolveWord ws w3 = some r3) :
    decodeTriples ws (w1 :: w2 :: w3 :: rest) = (decodeTriples ws rest).map
      (fun tail => swap_endian_4_byte (hexMin8 (tripleXL ws.words.length r1 r2 r3)) ++ tail) := by
  have hlt : r1 < ws.words.length := resolveWord_lt ws w1 r1 h1
  have hchk := tripleXL_mod ws.words.length r1 r2 r3 hlt
  simp only [decodeTriples, h1, h2, h3, Option.bind_eq_bind, Option.some_bind, hchk, if_true]
  cases hrest : decodeTriples ws rest <;> simp

theorem decodeTriples_len (ws : MWordset) : ∀ n l h, l.length ≤ n →
    decodeTriples ws l = some h → l.length % 3 = 0 ∧ h.length = l.length / 3 * 8 := by
  intro n
  induction n with
  | zero =>
    intro l h hl hd
    match l with
    | [] =>
      simp only [decodeTriples, Option.some.injEq] at hd
      subst hd; simp
    | _ :: _ => simp at hl
  | succ n ih =>
    intro l h hl hd
    match l with
    | [] =>
      simp only [decodeTriples, Option.some.injEq] at hd
      subst hd; simp
    | [_] => simp [decodeTriples] at hd
    | [_, _] => simp [decodeTriples] at hd
    | w1 :: w2 :: w3 :: rest =>
      simp only [decodeTriples, Option.bind_eq_bind, Option.bind_eq_some] at hd
      obtain ⟨r1, h1, r2, h2, r3, h3, hd⟩ := hd
      by_cases hchk : tripleXL ws.words.length r1 r2 r3 % ws.words.length = r1
      · simp only [hchk, if_true, Option.bind_eq_some, Option.some.injEq] at hd
        obtain ⟨tail, htail, rfl⟩ := hd
        have hrest : rest.length ≤ n := by
          simp only [List.length_cons] at hl; omega
        obtain ⟨hm, hlen⟩ := ih rest tail hrest htail
        constructor
        · simp only [List.length_cons]; omega
        · simp only [List.length_append, hlen,
            swap_endian_len _ (hexMin8_len _), List.length_cons]
          omega
      · simp [hchk] at hd

/-! ## Concrete wordset and seeds used by the witnesses -/

/-- A small concrete wordset used to exercise the mnemonic functions. -/
def wsW : MWordset := ⟨[Char.ofNat 119], 1, [[97, 97], [98, 98], [99, 99]]⟩

/-- A 25-word mnemonic (24 words plus checksum), all equal to the first word. -/
def seedW25 : List (List Nat) := List.replicate 25 [97, 97]

/-- A 13-word mnemonic (12 words plus checksum), all equal to the first word. -/
def seedW13 : List (List Nat) := List.replicate 13 [97, 97]

/-- 64 zero characters. -/
def hexW64 : List Char := List.replicate 64 (Char.ofNat 48)

/-- 32 zero characters. -/
def hexW32 : List Char := List.replicate 32 (Char.ofNat 48)

/-! ## Claim C4 -/

/-- C4 (counterexample): for the resolved index triple (0, 1625, 1624) —
reachable since the dictionaries have 1626 words — the decoded value
x = 4298940750 ≥ 2^32 has nine hex digits, and the emitted contribution
is not the byte-swap of the 8 hex chars of x as the claim states. -/
theorem c4_counterexample :
    tripleContributionL 1626 0 1625 1624 ≠
      specTripleEmission (tripleX 0 1625 1624) := by decide

/-- C4 (amended): for every triple of resolved word indices whose decoded
value x is below 2^32, the emitted contribution is the 8 hex chars of x
byte-swapped (EEFFGGHH for standard hex HHGGFFEE); and independently of
that bound, an accepted 25-word input yields exactly 64 hex chars and an
accepted 13-word input yields exactly 32. -/
theorem c4_triple_emission_and_lengths :
    (∀ w1 w2 w3, tripleX w1 w2 w3 < 2 ^ 32 →
      tripleContributionL 1626 w1 w2 w3 = specTripleEmission (tripleX w1 w2 w3)) ∧
    (∀ ws seed h, derive_hex_seed ws seed = some h → seed.length = 25 → h.length = 64) ∧
    (∀ ws seed h, derive_hex_seed ws seed = some h → seed.length = 13 → h.length = 32) := by
  refine ⟨?_, ?_, ?_⟩
  · intro w1 w2 w3 hx
    unfold tripleContributionL
    exact swap_hexMin8_eq_spec (tripleXL 1626 w1 w2 w3) hx
  · intro ws seed h hd hlen
    unfold derive_hex_seed at hd
    split at hd
    · split at hd
      · obtain ⟨hm, hl⟩ :=
          decodeTriples_len ws seed.dropLast.length seed.dropLast h (le_refl _) hd
        simp only [List.length_dropLast, hlen] at hl
        omega
      · obtain ⟨hm, _⟩ := decodeTriples_len ws seed.length seed h (le_refl _) hd
        omega
    · simp at hd
  · intro ws seed h hd hlen
    unfold derive_hex_seed at hd
    split at hd
    · split at hd
      · obtain ⟨hm, hl⟩ :=
          decodeTriples_len ws seed.dropLast.length seed.dropLast h (le_refl _) hd
        simp only [List.length_dropLast, hlen] at hl
        omega
      · obtain ⟨hm, _⟩ := decodeTriples_len ws seed.length seed h (le_refl _) hd
        omega
    · simp at hd

/-- C4 (witness): the amended theorem applied at concrete inputs. -/
theorem c4_witness :
    tripleX 0 1 2 < 2 ^ 32 ∧
    tripleContributionL 1626 0 1 2 = specTripleEmission (tripleX 0 1 2) ∧
    derive_hex_seed wsW seedW25 = some hexW64 ∧ hexW64.length = 64 ∧
    derive_hex_seed wsW seedW13 = some hexW32 ∧ hexW32.length = 32 :=
  ⟨by decide, c4_triple_emission_and_lengths.1 0 1 2 (by decide), by decide,
    c4_triple_emission_and_lengths.2.1 wsW seedW25 hexW64 (by decide) (by decide), by decide,
    c4_triple_emission_and_lengths.2.2 wsW seedW13 hexW32 (by decide) (by decide)⟩

/-! ## Claim C10 -/

/-- C10: for word indices with w1 < 1626 the decoded triple value
satisfies x mod 1626 = w1, and consequently the integrity-check error
branch of `derive_hex_seed` is never taken when all three words of a
triple resolve to dictionary positions. -/
theorem c10_integrity_check_unreachable :
    (∀ w1 w2 w3, w1 < 1626 → tripleX w1 w2 w3 % 1626 = w1) ∧
    (∀ ws w1 w2 w3 rest r1 r2 r3, resolveWord ws w1 = some r1 →
      resolveWord ws w2 = some r2 → resolveWord ws w3 = some r3 →
      decodeTriples ws (w1 :: w2 :: w3 :: rest) = (decodeTriples ws rest).map
        (fun tail => swap_endian_4_byte (hexMin8 (tripleXL ws.words.length r1 r2 r3)) ++ tail)) := by
  constructor
  · intro w1 w2 w3 h
    exact tripleXL_mod 1626 w1 w2 w3 h
  · intro ws w1 w2 w3 rest r1 r2 r3 h1 h2 h3
    exact decodeTriples_check_passes ws w1 w2 w3 rest r1 r2 r3 h1 h2 h3

/-- C10 (witness): the theorem applied at concrete inputs. -/
theorem c10_witness :
    tripleX 5 7 9 % 1626 = 5 ∧
    decodeTriples wsW [[97, 97], [98, 98], [99, 99]] = (decodeTriples wsW []).map
      (fun tail => swap_endian_4_byte (hexMin8 (tripleXL wsW.words.length 0 1 2)) ++ tail) :=
  ⟨c10_integrity_check_unreachable.1 5 7 9 (by decide),
    c10_integrity_check_unreachable.2 wsW [97, 97] [98, 98] [99, 99] [] 0 1 2
      (by decide) (by decide) (by decide)⟩

/-! ## CRC32 and seed generation (`keys.rs`) -/

/-- One bit step of CRC-32 with the reversed polynomial 0xEDB88320. -/
def crc32Bit (c : Nat) : Nat := if c &&& 1 = 1 then (c >>> 1) ^^^ 0xEDB88320 else c >>> 1

/-- Modelled from the spec: one byte step of the CRC32 checksum computed by
the `crc32fast::Hasher` used in `get_checksum_index` (the crate is an
external dependency; the spec names the function CRC32). -/
def crc32Byte (c b : Nat) : Nat :=
  crc32Bit (crc32Bit (crc32Bit (crc32Bit (crc32Bit (crc32Bit (crc32Bit (crc32Bit (c ^^^ b))))))))

/-- Modelled from the spec: the CRC32 (IEEE) checksum of a byte list. -/
def crc32 (bs : List Nat) : Nat := (bs.foldl crc32Byte 0xFFFFFFFF) ^^^ 0xFFFFFFFF

/-- Embedding of `get_checksum_index` (`keys.rs` lines 31-39): CRC32 of the
concatenation of the `prefix_length`-truncated words, reduced modulo the
number of words in the array. -/
def get_checksum_index (arr : List (List Nat)) (prefixLength : Nat) : Nat :=
  crc32 (arr.foldl (fun acc w => acc ++ w.take prefixLength) []) % arr.length

/-- Embedding of `generate_original_seed` (`keys.rs` lines 42-67) for a
given wordset, parameterized by the 24 randomly chosen words (the source
draws them from a secure RNG): the seed is the choices followed by the
checksum word `seed[checksum_index]`. -/
def generate_original_seed (ws : MWordset) (choices : List (List Nat)) : List (List Nat) :=
  choices ++ [choices.getD (get_checksum_index choices ws.prefixLen) []]

/-- Embedding of `generate_mymonero_seed` (`keys.rs` lines 70-95),
parameterized by the 12 randomly chosen words. -/
def generate_mymonero_seed (ws : MWordset) (choices : List (List Nat)) : List (List Nat) :=
  choices ++ [choices.getD (get_checksum_index choices ws.prefixLen) []]

/-- Embedding of `generate_seed` (`keys.rs` lines 98-111): dispatch on the
seed type; `polyseed` and unknown types panic in the source and are
modelled as `none`. -/
def generate_seed (ws : MWordset) (seedType : List Char) (choices : List (List Nat)) :
    Option (List (List Nat)) :=
  if seedType = "original".toList then some (generate_original_seed ws choices)
  else if seedType = "mymonero".toList then some (generate_mymonero_seed ws choices)
  else none

/-- The truncation described by the claim: the whole word when the
wordset's prefix length is 0, else its first `prefix_len` letters. -/
def claimT (ws : MWordset) (w : List Nat) : List Nat :=
  if ws.prefixLen = 0 then w else w.take ws.prefixLen

/-! ## Claim C5 -/

theorem foldl_claimT_eq (ws : MWordset) (hp : 0 < ws.prefixLen) (l : List (List Nat)) :
    l.foldl (fun acc w => acc ++ claimT ws w) [] =
      l.foldl (fun acc w => acc ++ w.take ws.prefixLen) [] := by
  have : (fun (acc : List Nat) w => acc ++ claimT ws w) =
      (fun acc w => acc ++ w.take ws.prefixLen) := by
    funext acc w
    unfold claimT
    rw [if_neg (by omega)]
  rw [this]

/-- C5: a seed generated with type original has 25 words and one with
type mymonero has 13 words, and in both cases the last word equals
`seed[CRC32(concat of T(word_i) over the first N words) mod N]` with
N = 24 resp. 12 — the index indexes the generated seed itself.  Stated
for wordsets with positive prefix length (every wordset shipped with the
repository; the dictionaries are not part of the available sources). -/
theorem c5_generate_seed_checksum_invariant :
    (∀ ws choices s, choices.length = 24 → 0 < ws.prefixLen →
      generate_seed ws "original".toList choices = some s →
      s.length = 25 ∧
      s.getLastD [] =
        s.getD (crc32 ((s.take 24).foldl (fun acc w => acc ++ claimT ws w) []) % 24) []) ∧
    (∀ ws choices s, choices.length = 12 → 0 < ws.prefixLen →
      generate_seed ws "mymonero".toList choices = some s →
      s.length = 13 ∧
      s.getLastD [] =
        s.getD (crc32 ((s.take 12).foldl (fun acc w => acc ++ claimT ws w) []) % 12) []) := by
  constructor
  · intro ws choices s hlen hp hs
    unfold generate_seed at hs
    rw [if_pos (by decide)] at hs
    obtain rfl : generate_original_seed ws choices = s := by
      injection hs
    unfold generate_original_seed
    have htake : (choices ++ [choices.getD (get_checksum_index choices ws.prefixLen) []]).take 24
        = choices := by
      rw [← hlen]
      exact List.take_left choices _
    constructor
    · simp [hlen]
    · rw [htake, foldl_claimT_eq ws hp]
      have hidx : get_checksum_index choices ws.prefixLen =
          crc32 (choices.foldl (fun acc w => acc ++ w.take ws.prefixLen) []) % 24 := by
        unfold get_checksum_index
        rw [hlen]
      rw [← hidx]
      have hlt : get_checksum_index choices ws.prefixLen < choices.length := by
        unfold get_checksum_index
        exact Nat.mod_lt _ (by omega)
      rw [List.getD_append _ _ _ _ hlt, List.getLastD_concat]
  · intro ws choices s hlen hp hs
    unfold generate_seed at hs
    rw [if_neg (by decide), if_pos (by decide)] at hs
    obtain rfl : generate_mymonero_seed ws choices = s := by
      injection hs
    unfold generate_mymonero_seed
    have htake : (choices ++ [choices.getD (get_checksum_index choices ws.prefixLen) []]).take 12
        = choices := by
      rw [← hlen]
      exact List.take_left choices _
    constructor
    · simp [hlen]
    · rw [htake, foldl_claimT_eq ws hp]
      have hidx : get_checksum_index choices ws.prefixLen =
          crc32 (choices.foldl (fun acc w => acc ++ w.take ws.prefixLen) []) % 12 := by
        unfold get_checksum_index
        rw [hlen]
      rw [← hidx]
      have hlt : get_checksum_index choices ws.prefixLen < choices.length := by
        unfold get_checksum_index
        exact Nat.mod_lt _ (by omega)
      rw [List.getD_append _ _ _ _ hlt, List.getLastD_concat]

/-- The 24 choices used by the C5 witness. -/
def chW24 : List (List Nat) := List.replicate 24 [97, 97]

/-- The 12 choices used by the C5 witness. -/
def chW12 : List (List Nat) := List.replicate 12 [97, 97]

/-- C5 (witness): the theorem applied to concrete choices. -/
theorem c5_witness :
    chW24.length = 24 ∧ 0 < wsW.prefixLen ∧
    generate_seed wsW "original".toList chW24 = some seedW25 ∧
    seedW25.length = 25 ∧
    seedW25.getLastD [] =
      seedW25.getD (crc32 ((seedW25.take 24).foldl (fun acc w => acc ++ claimT wsW w) []) % 24) [] ∧
    generate_seed wsW "mymonero".toList chW12 = some seedW13 ∧
    seedW13.length = 13 :=
  ⟨by decide, by decide, by decide,
    (c5_generate_seed_checksum_invariant.1 wsW chW24 seedW25 (by decide) (by decide)
      (by decide)).1,
    (c5_generate_seed_checksum_invariant.1 wsW chW24 seedW25 (by decide) (by decide)
      (by decide)).2,
    by decide,
    (c5_generate_seed_checksum_invariant.2 wsW chW12 seedW13 (by decide) (by decide)
      (by decide)).1⟩

/-! ## CryptoNight slow hash (`slow_hash.rs`): u64-pair helpers -/

/-- Byte-list slice `l[a..b]`. -/
def sliceB (l : List Nat) (a b : Nat) : List Nat := (l.drop a).take (b - a)

/-- Modelled from the spec: `turn_to_u64` from `otheru.rs` (not among the
available sources) interprets 8 bytes as a little-endian u64. -/
def turn_to_u64 (l : List Nat) : Nat := leVal l

/-- Modelled from the spec: `turn_to_u8_16` from `otheru.rs` turns a u64
pair into its 16 little-endian bytes. -/
def turn_to_u8_16 (p : Nat × Nat) : List Nat := leBytesN 8 p.1 ++ leBytesN 8 p.2

/-- Modelled from the spec: `turn_to_u64_2` from `otheru.rs` turns 16
bytes into a pair of little-endian u64 values. -/
def turn_to_u64_2 (l : List Nat) : Nat × Nat := (leVal (l.take 8), leVal ((l.drop 8).take 8))

/-- Modelled from the spec: `xor_pair_u64_2` from `otheru.rs`,
componentwise XOR of u64 pairs. -/
def xor_pair_u64_2 (x y : Nat × Nat) : Nat × Nat := (x.1 ^^^ y.1, x.2 ^^^ y.2)

/-- Modelled from the spec: `add_pair_u64_2` from `otheru.rs` (the
8byte_add of CNS-008), componentwise addition modulo 2^64. -/
def add_pair_u64_2 (x y : Nat × Nat) : Nat × Nat :=
  ((x.1 + y.1) % 2 ^ 64, (x.2 + y.2) % 2 ^ 64)

/-- Modelled from the spec: `mul_pair_u64_2` from `otheru.rs` (the
8byte_mul of CNS-008) multiplies the first components as u64 values and
returns the 128-bit product with the high half first. -/
def mul_pair_u64_2 (x y : Nat × Nat) : Nat × Nat :=
  (x.1 * y.1 / 2 ^ 64, x.1 * y.1 % 2 ^ 64)

/-- Scratchpad cell index for a 16-byte value whose first u64 is `v`
(`slow_hash.rs` lines 134 and 144): `(v & 0x1F_FFF0) as usize / 16`. -/
def toAddr (v : Nat) : Nat := (v &&& 0x1FFFF0) / 16

/-- State of the memory-hard loop: registers `a` and `b` and the
scratchpad viewed as u64 pairs (`sp_u64_2` in the source). -/
structure CNState where
  a : Nat × Nat
  b : Nat × Nat
  sp : Nat → Nat × Nat

/-- One iteration of the memory-hard loop, as written in `slow_hash.rs`
lines 132-148, with `aes_round` (from the unavailable `aesu.rs`) as a
parameter. -/
def cnStep (aes_round : List Nat → List Nat → List Nat) (s : CNState) : CNState :=
  let addr := toAddr s.a.1
  let block := aes_round (turn_to_u8_16 (s.sp addr)) (turn_to_u8_16 s.a)
  let sp1 := Function.update s.sp addr (turn_to_u64_2 block)
  let tmp := s.b
  let b2 := sp1 addr
  let man := xor_pair_u64_2 (sp1 addr) tmp
  let sp2 := Function.update sp1 addr man
  let addr2 := toAddr b2.1
  let t := add_pair_u64_2 s.a (mul_pair_u64_2 b2 (sp2 addr2))
  let a2 := xor_pair_u64_2 (sp2 addr2) t
  let sp3 := Function.update sp2 addr2 t
  ⟨a2, b2, sp3⟩

/-- One iteration as described by the specification pseudo-code: the
post-AES cell value is published to `b` before the second address is
computed from `b[0]`; then `t = a +128 mul8byte(b, cell2)` is stored into
the addressed cell and `a` becomes `t XOR cell2` with `cell2` the value
before the store. -/
def cnSpecStep (aes_round : List Nat → List Nat → List Nat) (s : CNState) : CNState :=
  let addr := toAddr s.a.1
  let cell := s.sp addr
  let cellP := turn_to_u64_2 (aes_round (turn_to_u8_16 cell) (turn_to_u8_16 s.a))
  let sp1 := Function.update s.sp addr (xor_pair_u64_2 cellP s.b)
  let b2 := cellP
  let addr2 := toAddr b2.1
  let cell2 := sp1 addr2
  let t := add_pair_u64_2 s.a (mul_pair_u64_2 b2 cell2)
  let sp2 := Function.update sp1 addr2 t
  ⟨xor_pair_u64_2 t cell2, b2, sp2⟩

/-- Register initialization of the memory-hard loop (`slow_hash.rs`
lines 124-129). -/
def cnInitAB (kh : List Nat) : (Nat × Nat) × (Nat × Nat) :=
  ((turn_to_u64 (sliceB kh 0 8) ^^^ turn_to_u64 (sliceB kh 32 40),
    turn_to_u64 (sliceB kh 8 16) ^^^ turn_to_u64 (sliceB kh 40 48)),
   (turn_to_u64 (sliceB kh 16 24) ^^^ turn_to_u64 (sliceB kh 48 56),
    turn_to_u64 (sliceB kh 24 32) ^^^ turn_to_u64 (sliceB kh 56 64)))

/-- Register initialization as described by the specification:
`a = state[0..16] XOR state[32..48]`, `b = state[16..32] XOR state[48..64]`,
as little-endian u64 pairs. -/
def cnSpecInitAB (kh : List Nat) : (Nat × Nat) × (Nat × Nat) :=
  (xor_pair_u64_2 (turn_to_u64_2 (sliceB kh 0 16)) (turn_to_u64_2 (sliceB kh 32 48)),
   xor_pair_u64_2 (turn_to_u64_2 (sliceB kh 16 32)) (turn_to_u64_2 (sliceB kh 48 64)))

/-- The memory-hard loop (`slow_hash.rs` line 132): `for _ in 0..524_288`. -/
def cnMemoryLoop (aes_round : List Nat → List Nat → List Nat) (s : CNState) : CNState :=
  (List.range 524288).foldl (fun st _ => cnStep aes_round st) s

theorem foldl_range_iterate {α : Type} (f : α → α) : ∀ (n : Nat) (s : α),
    (List.range n).foldl (fun x _ => f x) s = f^[n] s := by
  intro n
  induction n with
  | zero => intro s; rfl
  | succ n ih =>
    intro s
    rw [List.range_succ, List.foldl_append, ih, Function.iterate_succ_apply']
    rfl

theorem xor_pair_comm (x y : Nat × Nat) : xor_pair_u64_2 x y = xor_pair_u64_2 y x := by
  simp [xor_pair_u64_2, Nat.xor_comm]

/-! ## Claim C2 -/

/-- C2: the registers are initialized as the claim states, the loop runs
exactly 524,288 iterations of the step function, and each step equals the
specification's pseudo-code step — in particular `b` receives the post-AES
cell value before the second address is computed from it, and the second
half stores `t = a +128 mul8byte(b, cell2)` and sets `a = t XOR cell2`
with `cell2` the pre-store cell value. -/
theorem c2_memory_hard_loop (aes_round : List Nat → List Nat → List Nat) :
    (∀ kh, cnInitAB kh = cnSpecInitAB kh) ∧
    (∀ s, cnMemoryLoop aes_round s = (cnStep aes_round)^[524288] s) ∧
    (∀ s, cnStep aes_round s = cnSpecStep aes_round s) := by
  refine ⟨?_, ?_, ?_⟩
  · intro kh
    simp only [cnInitAB, cnSpecInitAB, turn_to_u64, turn_to_u64_2, xor_pair_u64_2, sliceB,
      List.take_take, List.drop_take, List.drop_drop, Prod.mk.injEq]
    norm_num
  · intro s
    exact foldl_range_iterate (cnStep aes_round) 524288 s
  · intro s
    simp only [cnStep, cnSpecStep]
    rw [Function.update_same]
    simp only [Function.update_same, Function.update_idem]
    rw [xor_pair_comm]

/-! ## AES-256 key schedule (modelled from the spec; `aesu.rs` is not
among the available sources) -/

/-- Modelled from the spec: doubling in GF(2^8) with reducing polynomial
0x11B. -/
def xtime (a : Nat) : Nat :=
  if a &&& 0x80 = 0x80 then ((a <<< 1) ^^^ 0x1B) &&& 0xFF else (a <<< 1) &&& 0xFF

/-- Modelled from the spec: multiplication in GF(2^8). -/
def gfMul (a b : Nat) : Nat :=
  (List.range 8).foldl (fun acc i => if b >>> i &&& 1 = 1 then acc ^^^ xtime^[i] a else acc) 0

/-- Modelled from the spec: exponentiation in GF(2^8). -/
def gfPow (a n : Nat) : Nat := (List.range n).foldl (fun acc _ => gfMul acc a) 1

/-- Rotate an 8-bit value left by `n`. -/
def rotl8 (x n : Nat) : Nat := ((x <<< n) ||| (x >>> (8 - n))) &&& 0xFF

/-- Modelled from the spec: the standard AES S-box — the GF(2^8) inverse
(as x^254) followed by the affine transformation. -/
def sbox (b : Nat) : Nat :=
  let inv := gfPow b 254
  inv ^^^ rotl8 inv 1 ^^^ rotl8 inv 2 ^^^ rotl8 inv 3 ^^^ rotl8 inv 4 ^^^ 0x63

/-- SubWord: the S-box applied to each byte of a 4-byte word. -/
def subWord (w : List Nat) : List Nat := w.map sbox

/-- RotWord: rotate a 4-byte word left by one byte. -/
def rotWord (w : List Nat) : List Nat := w.drop 1 ++ w.take 1

/-- Bytewise XOR of two words. -/
def xorWord (a b : List Nat) : List Nat := List.zipWith (fun x y => x ^^^ y) a b

/-- Modelled from the spec: word `i` of the standard Rijndael AES-256 key
expansion (Nk = 8), with round constants `Rcon[1..7] = 01,02,04,08,10,20,40`. -/
def ksWord (key : List Nat) (i : Nat) : List Nat :=
  if h : i < 8 then (key.drop (4 * i)).take 4
  else
    let prev := ksWord key (i - 1)
    let tmp :=
      if i % 8 = 0 then xorWord (subWord (rotWord prev)) [2 ^ (i / 8 - 1), 0, 0, 0]
      else if i % 8 = 4 then subWord prev
      else prev
    xorWord (ksWord key (i - 8)) tmp
termination_by i
decreasing_by all_goals omega

/-- Round key `j` (16 bytes) of the AES-256 key schedule: words
`4j .. 4j+3`. -/
def roundKey (key : List Nat) (j : Nat) : List Nat :=
  ksWord key (4 * j) ++ ksWord key (4 * j + 1) ++ ksWord key (4 * j + 2) ++ ksWord key (4 * j + 3)

/-- Modelled from the spec: the full AES-256 key schedule, 15 round keys
of 16 bytes (240 bytes). -/
def aes256RoundKeys (key : List Nat) : List (List Nat) :=
  (List.range 15).map (roundKey key)

/-- Modelled from the spec and the `slow_hash.rs` comments: `derive_key`
from `aesu.rs` (not among the available sources) expands a 32-byte key to
the round keys over which the slow-hash stages iterate.  The stages apply
one `aes_round` per returned key and CNS-008 (cited by the source, whose
comments say "expanded to 10 round keys") prescribes ten rounds, so
`derive_key` returns the first ten round keys of the AES-256 schedule. -/
def derive_key (key : List Nat) : List (List Nat) :=
  (List.range 10).map (roundKey key)

/-- The per-block transform of stages A and C of `cn_slow_hash`
(`slow_hash.rs` lines 72-76 and 186-190): one `aes_round` per round key,
in order, over a 16-byte block. -/
def cnEncryptBlock (aes_round : List Nat → List Nat → List Nat)
    (roundKeys : List (List Nat)) (block : List Nat) : List Nat :=
  roundKeys.foldl aes_round block

/-! ## Claim C3 -/

/-- C3: in stages A and C every 16-byte block is transformed by exactly
ten applications of `aes_round`, using the first ten 16-byte round keys
of the expanded AES-256 key schedule, in order. -/
theorem c3_ten_aes_rounds (aes_round : List Nat → List Nat → List Nat)
    (key block : List Nat) :
    derive_key key = (aes256RoundKeys key).take 10 ∧
    (derive_key key).length = 10 ∧
    (aes256RoundKeys key).length = 15 ∧
    cnEncryptBlock aes_round (derive_key key) block =
      List.foldl aes_round block ((aes256RoundKeys key).take 10) ∧
    cnEncryptBlock aes_round (derive_key key) block =
      aes_round (aes_round (aes_round (aes_round (aes_round (aes_round (aes_round (aes_round
        (aes_round (aes_round block (roundKey key 0)) (roundKey key 1)) (roundKey key 2))
        (roundKey key 3)) (roundKey key 4)) (roundKey key 5)) (roundKey key 6))
        (roundKey key 7)) (roundKey key 8)) (roundKey key 9) := by
  have hdk : derive_key key = (aes256RoundKeys key).take 10 := by
    unfold derive_key aes256RoundKeys
    rw [← List.map_take, List.take_range]
    norm_num
  refine ⟨hdk, by simp [derive_key], by simp [aes256RoundKeys], by rw [cnEncryptBlock, hdk], ?_⟩
  show cnEncryptBlock aes_round ((List.range 10).map (roundKey key)) block = _
  simp [cnEncryptBlock, List.range_succ]

/-! ## Finalizer stage of `cn_slow_hash` (claim C8) -/

/-- Finalizer selection of `cn_slow_hash` (`slow_hash.rs` lines 203-211),
parameterized by the four 256-bit hash functions from the unavailable
`otheru.rs`: select by `keccak_hash[0] & 0x03` and apply the chosen
function to the whole 200-byte state; the `unreachable` arm of the source
match is modelled as `none`. -/
def finalizerSelect (blake256_hash groestl256_hash jh256_hash skein256_hash :
    List Nat → List Nat) (state : List Nat) : Option (List Nat) :=
  match state.getD 0 0 &&& 0x03 with
  | 0 => some (blake256_hash state)
  | 1 => some (groestl256_hash state)
  | 2 => some (jh256_hash state)
  | 3 => some (skein256_hash state)
  | _ => none

/-- The result stage tail of `cn_slow_hash` (`slow_hash.rs` lines
203-218): finalizer selection followed by lowercase hex rendering. -/
def cnFinalStage (blake256_hash groestl256_hash jh256_hash skein256_hash :
    List Nat → List Nat) (state : List Nat) : Option (List Char) :=
  (finalizerSelect blake256_hash groestl256_hash jh256_hash skein256_hash state).map
    renderBytesHex

theorem renderBytesHex_length (bs : List Nat) : (renderBytesHex bs).length = 2 * bs.length := by
  induction bs with
  | nil => rfl
  | cons b t ih =>
    simp only [renderBytesHex, List.map_cons, List.flatten_cons, List.length_append,
      List.length_cons] at ih ⊢
    simp only [byteToHex2, List.length_cons, List.length_nil]
    omega

theorem hexChar_lower (d : Nat) (h : d < 16) : isLowerHexDigit (hexChar d) = true := by
  interval_cases d <;> decide

theorem renderBytesHex_lower (bs : List Nat) :
    ∀ c ∈ renderBytesHex bs, isLowerHexDigit c = true := by
  induction bs with
  | nil => simp [renderBytesHex]
  | cons b t ih =>
    intro c hc
    simp only [renderBytesHex, List.map_cons, List.flatten_cons, List.mem_append] at hc
    rcases hc with hc | hc
    · simp only [byteToHex2, List.mem_cons, List.not_mem_nil, or_false] at hc
      rcases hc with rfl | rfl
      · exact hexChar_lower _ (Nat.mod_lt _ (by omega))
      · exact hexChar_lower _ (Nat.mod_lt _ (by omega))
    · exact ih c hc

/-! ## Claim C8 -/

/-- C8: the finalizer is selected by `state[0] AND 0x03` — 0 is
`blake256_hash`, 1 `groestl256_hash`, 2 `jh256_hash`, 3 `skein256_hash`,
and no other value occurs — it is applied to the whole 200-byte state,
and a 32-byte digest is rendered as exactly 64 lowercase hex characters. -/
theorem c8_finalizer_selection (B G J S : List Nat → List Nat) (state : List Nat)
    (_hlen : state.length = 200) :
    (state.getD 0 0 &&& 0x03 = 0 → cnFinalStage B G J S state = some (renderBytesHex (B state))) ∧
    (state.getD 0 0 &&& 0x03 = 1 → cnFinalStage B G J S state = some (renderBytesHex (G state))) ∧
    (state.getD 0 0 &&& 0x03 = 2 → cnFinalStage B G J S state = some (renderBytesHex (J state))) ∧
    (state.getD 0 0 &&& 0x03 = 3 → cnFinalStage B G J S state = some (renderBytesHex (S state))) ∧
    (∃ out, cnFinalStage B G J S state = some out) ∧
    (∀ digest, finalizerSelect B G J S state = some digest → digest.length = 32 →
      (renderBytesHex digest).length = 64 ∧ ∀ c ∈ renderBytesHex digest,
        isLowerHexDigit c = true) := by
  refine ⟨?_, ?_, ?_, ?_, ?_, ?_⟩
  · intro h; unfold cnFinalStage finalizerSelect; rw [h]; rfl
  · intro h; unfold cnFinalStage finalizerSelect; rw [h]; rfl
  · intro h; unfold cnFinalStage finalizerSelect; rw [h]; rfl
  · intro h; unfold cnFinalStage finalizerSelect; rw [h]; rfl
  · have hb : state.getD 0 0 &&& 0x03 < 4 := by
      have h3 : state.getD 0 0 &&& 0x03 ≤ 0x03 := Nat.and_le_right
      omega
    have hd : state.getD 0 0 &&& 0x03 = 0 ∨ state.getD 0 0 &&& 0x03 = 1 ∨
        state.getD 0 0 &&& 0x03 = 2 ∨ state.getD 0 0 &&& 0x03 = 3 := by omega
    unfold cnFinalStage finalizerSelect
    rcases hd with h | h | h | h <;> rw [h] <;> exact ⟨_, rfl⟩
  · intro digest hsel hd
    constructor
    · rw [renderBytesHex_length, hd]
    · exact renderBytesHex_lower digest

/-- A constant stand-in finalizer returning 32 zero bytes. -/
def constHash32 (_bs : List Nat) : List Nat := List.replicate 32 0

/-- The 200-byte zero state used by the C8 witness. -/
def stateW200 : List Nat := List.replicate 200 0

/-- C8 (witness): the theorem applied to a concrete state and concrete
finalizers. -/
theorem c8_witness :
    stateW200.length = 200 ∧
    (cnFinalStage constHash32 constHash32 constHash32 constHash32 stateW200 =
      some (renderBytesHex (constHash32 stateW200))) ∧
    (∃ out, cnFinalStage constHash32 constHash32 constHash32 constHash32 stateW200 = some out) ∧
    ((renderBytesHex (constHash32 stateW200)).length = 64 ∧
      ∀ c ∈ renderBytesHex (constHash32 stateW200), isLowerHexDigit c = true) :=
  ⟨by decide,
    (c8_finalizer_selection constHash32 constHash32 constHash32 constHash32 stateW200
      (by decide)).1 (by decide),
    (c8_finalizer_selection constHash32 constHash32 constHash32 constHash32 stateW200
      (by decide)).2.2.2.2.1,
    (c8_finalizer_selection constHash32 constHash32 constHash32 constHash32 stateW200
      (by decide)).2.2.2.2.2 (constHash32 stateW200) (by decide) (by decide)⟩

/-! ## Keccak-256 (modelled from the spec: the `sha3` crate's `Keccak256`
used by `keys.rs` is the original Keccak with rate 1088 and 0x01 padding) -/

/-- One step of the degree-8 LFSR generating the Keccak round-constant
bit sequence (polynomial x^8 + x^6 + x^5 + x^4 + 1, taps 0x71). -/
def keccakLFSRStep (r : Nat) : Nat :=
  let r2 := r <<< 1
  if r2 &&& 0x100 = 0x100 then (r2 ^^^ 0x71) &&& 0xFF else r2 &&& 0xFF

/-- Bit `t` of the Keccak round-constant sequence. -/
def keccakRCBit (t : Nat) : Nat := keccakLFSRStep^[t] 1 &&& 1

/-- Round constant of round `i` of Keccak-f[1600]: bit `2 ^ j - 1` comes
from sequence position `j + 7 i`. -/
def keccakRCAt (i : Nat) : Nat :=
  (List.range 7).foldl (fun acc j => acc ^^^ (keccakRCBit (j + 7 * i) <<< (2 ^ j - 1))) 0

/-- The 24 round constants of Keccak-f[1600]. -/
def keccakRC : List Nat := (List.range 24).map keccakRCAt

/-- The rho rotation walk: starting from lane (1,0), step `t` assigns
offset `(t+1)(t+2)/2 mod 64` and moves to `(y, (2x+3y) mod 5)`. -/
def keccakRhoPairs : List ((Nat × Nat) × Nat) :=
  ((List.range 24).foldl (fun (acc : (Nat × Nat) × List ((Nat × Nat) × Nat)) t =>
    let xy := acc.1
    ((xy.2, (2 * xy.1 + 3 * xy.2) % 5), (xy, (t + 1) * (t + 2) / 2 % 64) :: acc.2))
    ((1, 0), [])).2

/-- The rho rotation offset of the lane with flat index `i = x + 5 y`
(lane (0,0), absent from the walk, keeps offset 0). -/
def keccakRhoOff (i : Nat) : Nat :=
  ((keccakRhoPairs.find? (fun p => p.1.1 + 5 * p.1.2 == i)).map (fun p => p.2)).getD 0

/-- Rotate a 64-bit lane left by `n`. -/
def rotl64 (x n : Nat) : Nat :=
  ((x <<< (n % 64)) % 2 ^ 64) ||| ((x % 2 ^ 64) >>> (64 - n % 64))

/-- The theta step of Keccak-f. -/
def keccakTheta (A : List Nat) : List Nat :=
  let C := (List.range 5).map (fun x =>
    A.getD x 0 ^^^ A.getD (x + 5) 0 ^^^ A.getD (x + 10) 0 ^^^
      A.getD (x + 15) 0 ^^^ A.getD (x + 20) 0)
  let D := (List.range 5).map (fun x =>
    C.getD ((x + 4) % 5) 0 ^^^ rotl64 (C.getD ((x + 1) % 5) 0) 1)
  (List.range 25).map (fun i => A.getD i 0 ^^^ D.getD (i % 5) 0)

/-- The combined rho and pi steps: the output lane in column `c`, row `r`
is the rotated input lane `(x, y)` with `y = c` and `x = (3r + c) % 5`. -/
def keccakRhoPi (A : List Nat) : List Nat :=
  (List.range 25).map (fun j =>
    let c := j % 5
    let r := j / 5
    let i := (3 * r + c) % 5 + 5 * c
    rotl64 (A.getD i 0) (keccakRhoOff i))

/-- The chi step of Keccak-f. -/
def keccakChi (B : List Nat) : List Nat :=
  (List.range 25).map (fun j =>
    let c := j % 5
    let base := j - c
    B.getD j 0 ^^^ (((2 ^ 64 - 1) ^^^ B.getD (base + (c + 1) % 5) 0) &&&
      B.getD (base + (c + 2) % 5) 0))

/-- One round of Keccak-f[1600]: theta, rho, pi, chi, iota. -/
def keccakRound (A : List Nat) (rc : Nat) : List Nat :=
  let C := keccakChi (keccakRhoPi (keccakTheta A))
  C.set 0 (C.getD 0 0 ^^^ rc)

/-- The Keccak-f[1600] permutation: 24 rounds. -/
def keccakF (A : List Nat) : List Nat := keccakRC.foldl keccakRound A

/-- Keccak (pre-SHA3) padding for rate 136: append 0x01, zeros, 0x80
(0x81 when a single padding byte remains). -/
def keccakPad (m : List Nat) : List Nat :=
  let q := 136 - m.length % 136
  if q = 1 then m ++ [0x81] else m ++ [0x01] ++ List.replicate (q - 2) 0 ++ [0x80]

/-- Absorb one 136-byte block into the state and permute. -/
def keccakAbsorbBlock (A : List Nat) (block : List Nat) : List Nat :=
  keccakF ((List.range 25).map (fun i =>
    if i < 17 then A.getD i 0 ^^^ leVal (sliceB block (8 * i) (8 * i + 8)) else A.getD i 0))

/-- Absorb a padded message, 136 bytes at a time. -/
def keccakAbsorb (A : List Nat) : List Nat → List Nat
  | [] => A
  | b :: m => keccakAbsorb (keccakAbsorbBlock A ((b :: m).take 136)) ((b :: m).drop 136)
termination_by m => m.length
decreasing_by simp [List.length_drop]; omega

/-- Modelled from the spec: `Keccak256` of the `sha3` crate — absorb with
0x01 padding at rate 136 and squeeze 32 bytes (little-endian lanes). -/
def keccak256 (m : List Nat) : List Nat :=
  let A := keccakAbsorb (List.replicate 25 0) (keccakPad m)
  (List.range 32).map (fun i => A.getD (i / 8) 0 / 256 ^ (i % 8) % 256)

/-! ## Private key derivation (`keys.rs`) -/

/-- The Ed25519 group order. -/
def ed25519L : Nat := 2 ^ 252 + 27742317777372353535851937790883648493

/-- Modelled from the spec: `sc_reduce32` from `crypt/ed25519.rs` (not
among the available sources) reduces a 32-byte little-endian value modulo
the Ed25519 group order, in place. -/
def sc_reduce32 (bs : List Nat) : List Nat := leBytesN 32 (leVal bs % ed25519L)

/-- Embedding of `derive_mymonero_priv_keys` (`keys.rs` lines 238-272):
spend key from `sc_reduce32(Keccak256(seed bytes))`, view key from
`sc_reduce32(Keccak256(Keccak256(seed bytes)))` — the second Keccak chain
starts again from the decoded seed bytes, not from the spend key. -/
def derive_mymonero_priv_keys (hexSeed : List Char) : Option (List (List Char)) := do
  let hexBytes ← hexDecode hexSeed
  let privSpendKey := renderBytesHex (sc_reduce32 (keccak256 hexBytes))
  let viewDigest1 := keccak256 hexBytes
  let viewDigest2 := keccak256 viewDigest1
  let privViewKey := renderBytesHex (sc_reduce32 viewDigest2)
  some [privSpendKey, privViewKey]

/-- Embedding of `derive_original_priv_keys` (`keys.rs` lines 203-235):
spend key from `sc_reduce32(seed bytes)` (the `copy_from_slice` panics
unless the decode yields exactly 32 bytes), view key from
`sc_reduce32(Keccak256(spend key bytes))` after a hex round trip. -/
def derive_original_priv_keys (hexSeed : List Char) : Option (List (List Char)) := do
  let hexBytes ← hexDecode hexSeed
  if hexBytes.length = 32 then do
    let privSpendKey := renderBytesHex (sc_reduce32 hexBytes)
    let spendBytes ← hexDecode privSpendKey
    let privViewKey := renderBytesHex (sc_reduce32 (keccak256 spendBytes))
    some [privSpendKey, privViewKey]
  else none

/-- Embedding of `derive_priv_keys` (`keys.rs` lines 275-281): dispatch
on the hex string length, panic (`none`) otherwise. -/
def derive_priv_keys (hexSeed : List Char) : Option (List (List Char)) :=
  match hexSeed.length with
  | 32 => derive_mymonero_priv_keys hexSeed
  | 64 => derive_original_priv_keys hexSeed
  | _ => none

/-- The MyMonero derivation as worded by the specification and claim:
`priv_spend = sc_reduce32(Keccak256(seed))`,
`priv_view = sc_reduce32(Keccak256(Keccak256(seed)))`, each rendered as
lowercase hex. -/
def specMyMoneroKeys (bytes : List Nat) : List (List Char) :=
  [renderBytesHex (sc_reduce32 (keccak256 bytes)),
   renderBytesHex (sc_reduce32 (keccak256 (keccak256 bytes)))]

/-! ## Claim C6 -/

/-- C6: for a 32-hex-char seed that decodes to bytes, `derive_priv_keys`
takes the MyMonero path and returns the spend key
`sc_reduce32(Keccak256(seed bytes))` and the view key
`sc_reduce32(Keccak256(Keccak256(seed bytes)))` — the double Keccak over
the original seed bytes — each rendered as 64 lowercase hex characters. -/
theorem c6_mymonero_key_derivation (s : List Char) (bytes : List Nat)
    (h32 : s.length = 32) (hdec : hexDecode s = some bytes) :
    derive_priv_keys s = some (specMyMoneroKeys bytes) ∧
    (∀ k ∈ specMyMoneroKeys bytes, k.length = 64 ∧ ∀ c ∈ k, isLowerHexDigit c = true) := by
  constructor
  · unfold derive_priv_keys
    rw [h32]
    show derive_mymonero_priv_keys s = _
    unfold derive_mymonero_priv_keys
    rw [hdec]
    rfl
  · intro k hk
    have hlen : ∀ ds : List Nat, (renderBytesHex (sc_reduce32 ds)).length = 64 := by
      intro ds
      rw [renderBytesHex_length]
      simp [sc_reduce32, leBytesN]
    simp only [specMyMoneroKeys, List.mem_cons, List.not_mem_nil, or_false] at hk
    rcases hk with rfl | rfl
    · exact ⟨hlen _, renderBytesHex_lower _⟩
    · exact ⟨hlen _, renderBytesHex_lower _⟩

/-- The 32-character zero hex string used by the witnesses. -/
def sW32 : List Char := List.replicate 32 (Char.ofNat 48)

/-- The 64-character zero hex string used by the witnesses. -/
def sW64 : List Char := List.replicate 64 (Char.ofNat 48)

/-- The 16 zero bytes decoded from `sW32`. -/
def bW16 : List Nat := List.replicate 16 0

/-- C6 (witness): the theorem applied to a concrete 32-hex-char seed. -/
theorem c6_witness :
    sW32.length = 32 ∧ hexDecode sW32 = some bW16 ∧
    derive_priv_keys sW32 = some (specMyMoneroKeys bW16) ∧
    (∀ k ∈ specMyMoneroKeys bW16, k.length = 64 ∧ ∀ c ∈ k, isLowerHexDigit c = true) :=
  ⟨by decide, by decide,
    (c6_mymonero_key_derivation sW32 bW16 (by decide) (by decide)).1,
    (c6_mymonero_key_derivation sW32 bW16 (by decide) (by decide)).2⟩

/-! ## Claim C9 -/

/-- C9: `derive_priv_keys` dispatches on the length of its argument
alone — length 32 takes the MyMonero path, length 64 the original path,
and every other length is an error. -/
theorem c9_priv_key_dispatch :
    (∀ s : List Char, s.length = 32 → derive_priv_keys s = derive_mymonero_priv_keys s) ∧
    (∀ s : List Char, s.length = 64 → derive_priv_keys s = derive_original_priv_keys s) ∧
    (∀ s : List Char, s.length ≠ 32 → s.length ≠ 64 → derive_priv_keys s = none) := by
  refine ⟨?_, ?_, ?_⟩
  · intro s h
    unfold derive_priv_keys
    rw [h]
  · intro s h
    unfold derive_priv_keys
    rw [h]
  · intro s h32 h64
    unfold derive_priv_keys
    split
    next heq => exact absurd heq h32
    next heq => exact absurd heq h64
    next => rfl

/-- C9 (witness): the dispatch theorem applied at concrete lengths. -/
theorem c9_witness :
    derive_priv_keys sW32 = derive_mymonero_priv_keys sW32 ∧
    derive_priv_keys sW64 = derive_original_priv_keys sW64 ∧
    derive_priv_keys [Char.ofNat 97, Char.ofNat 98, Char.ofNat 99] = none :=
  ⟨c9_priv_key_dispatch.1 sW32 (by decide),
   c9_priv_key_dispatch.2.1 sW64 (by decide),
   c9_priv_key_dispatch.2.2 [Char.ofNat 97, Char.ofNat 98, Char.ofNat 99]
     (by decide) (by decide)⟩

/-! ## Monero base58 (modelled from the spec; the `base58-monero` crate
is an external dependency) and `derive_address` (`keys.rs`) -/

/-- The base58 alphabet, standard Bitcoin order. -/
def b58Alphabet : List Char := "123456789ABCDEFGHJKLMNPQRSTUVWXYZabcdefghijkmnopqrstuvwxyz".toList

/-- Modelled from the spec: the encoded size of an n-byte block in the
Monero base58 variant — a full 8-byte block gives exactly 11 characters,
a final short block of n bytes gives `[0,2,3,5,6,7,9,10,11][n]`. -/
def b58BlockSize (n : Nat) : Nat := [0, 2, 3, 5, 6, 7, 9, 10, 11].getD n 0

/-- Big-endian value of a byte list. -/
def beVal (l : List Nat) : Nat := l.foldl (fun acc b => acc * 256 + b) 0

/-- Base58 digits of `n`, most significant first. -/
def b58DigitsBE (n : Nat) : List Char :=
  ((Nat.digits 58 n).map (fun d => b58Alphabet.getD d (Char.ofNat 49))).reverse

/-- Modelled from the spec: one block of Monero base58 — the block value
in base 58, left-padded with the zero digit `1` to the fixed size. -/
def b58EncodeBlock (blk : List Nat) : List Char :=
  List.leftpad (b58BlockSize blk.length) (Char.ofNat 49) (b58DigitsBE (beVal blk))

/-- Modelled from the spec: `base58_monero::encode` — split the data into
8-byte blocks (the last one possibly short) and encode each to its fixed
size. -/
def base58_monero_encode (l : List Nat) : List Char :=
  if _h : l.length ≤ 8 then b58EncodeBlock l
  else b58EncodeBlock (l.take 8) ++ base58_monero_encode (l.drop 8)
termination_by l.length
decreasing_by simp [List.length_drop]; omega

/-- Embedding of the network tag match of `derive_address` (`keys.rs`
lines 334-338): 0 is mainnet 0x12, 1 is testnet 0x35, anything else
panics. -/
def networkByte : Nat → Option Nat
  | 0 => some 0x12
  | 1 => some 0x35
  | _ => none

/-- Embedding of `derive_address` (`keys.rs` lines 333-346): concatenate
the network byte and the two decoded public keys, append the first 4
bytes of the Keccak256 of that data, and base58-encode. -/
def derive_address (publicSpendKey publicViewKey : List Char) (network : Nat) :
    Option (List Char) := do
  let nb ← networkByte network
  let pubSkBytes ← hexDecode publicSpendKey
  let pubVkBytes ← hexDecode publicViewKey
  let data := nb :: (pubSkBytes ++ pubVkBytes)
  let hash := keccak256 data
  some (base58_monero_encode (data ++ hash.take 4))

/-! ## Byte bounds and base58 length lemmas -/

theorem hexNibble_lt (c : Char) (v : Nat) (h : hexNibble c = some v) : v < 16 := by
  unfold hexNibble at h
  split at h
  · injection h with h; omega
  · split at h
    · injection h with h; omega
    · split at h
      · injection h with h; omega
      · exact absurd h (by simp)

theorem hexDecode_lt : ∀ s bs, hexDecode s = some bs → ∀ b ∈ bs, b < 256 := by
  intro s
  induction s using hexDecode.induct with
  | case1 =>
    intro bs h
    simp only [hexDecode, Option.some.injEq] at h
    subst h
    simp
  | case2 c =>
    intro bs h
    simp [hexDecode] at h
  | case3 c1 c2 rest ih =>
    intro bs h b hb
    simp only [hexDecode, Option.bind_eq_bind, Option.bind_eq_some, Option.some.injEq] at h
    obtain ⟨h1, hh1, l1, hl1, r, hr, rfl⟩ := h
    simp only [List.mem_cons] at hb
    rcases hb with rfl | hb
    · have := hexNibble_lt c1 h1 hh1
      have := hexNibble_lt c2 l1 hl1
      omega
    · exact ih r hr b hb

theorem keccak256_lt (m : List Nat) : ∀ b ∈ keccak256 m, b < 256 := by
  intro b hb
  simp only [keccak256, List.mem_map, List.mem_range] at hb
  obtain ⟨i, _, rfl⟩ := hb
  exact Nat.mod_lt _ (by omega)

theorem keccak256_len (m : List Nat) : (keccak256 m).length = 32 := by
  simp [keccak256]

theorem beVal_aux_lt : ∀ (l : List Nat) (acc : Nat), (∀ b ∈ l, b < 256) →
    l.foldl (fun acc b => acc * 256 + b) acc < (acc + 1) * 256 ^ l.length := by
  intro l
  induction l with
  | nil => intro acc _; simp
  | cons b t ih =>
    intro acc hb
    simp only [List.foldl_cons, List.length_cons]
    have hblt : b < 256 := hb b (by simp)
    have := ih (acc * 256 + b) (fun x hx => hb x (by simp [hx]))
    calc t.foldl (fun acc b => acc * 256 + b) (acc * 256 + b)
        < (acc * 256 + b + 1) * 256 ^ t.length := this
      _ ≤ ((acc + 1) * 256) * 256 ^ t.length := by
          have : acc * 256 + b + 1 ≤ (acc + 1) * 256 := by nlinarith
          exact Nat.mul_le_mul_right _ this
      _ = (acc + 1) * 256 ^ (t.length + 1) := by ring

theorem beVal_lt (l : List Nat) (h : ∀ b ∈ l, b < 256) : beVal l < 256 ^ l.length := by
  have := beVal_aux_lt l 0 h
  simpa [beVal] using this

theorem digits_len_le_of_lt (b m k : Nat) (hb : 1 < b) (h : m < b ^ k) :
    (Nat.digits b m).length ≤ k := by
  by_cases hm : m = 0
  · simp [hm]
  · rw [Nat.digits_len b m hb hm]
    have := Nat.log_lt_of_lt_pow hm h
    omega

theorem b58EncodeBlock_len (blk : List Nat) (hlen : blk.length ≤ 8)
    (hb : ∀ b ∈ blk, b < 256) :
    (b58EncodeBlock blk).length = b58BlockSize blk.length := by
  have hv : beVal blk < 256 ^ blk.length := beVal_lt blk hb
  have hpow : 256 ^ blk.length ≤ 58 ^ b58BlockSize blk.length := by
    interval_cases h : blk.length <;> norm_num [b58BlockSize]
  have hdig : (Nat.digits 58 (beVal blk)).length ≤ b58BlockSize blk.length :=
    digits_len_le_of_lt 58 (beVal blk) _ (by omega) (lt_of_lt_of_le hv hpow)
  simp only [b58EncodeBlock, List.leftpad_length, b58DigitsBE, List.length_reverse,
    List.length_map]
  omega

theorem base58_monero_encode_len : ∀ N l, l.length ≤ N → (∀ b ∈ l, b < 256) →
    (base58_monero_encode l).length = 11 * (l.length / 8) + b58BlockSize (l.length % 8) := by
  have hsmall : ∀ n, n ≤ 8 → b58BlockSize n = 11 * (n / 8) + b58BlockSize (n % 8) := by
    intro n hn
    interval_cases n <;> rfl
  intro N
  induction N with
  | zero =>
    intro l hl hb
    have : l.length = 0 := by omega
    unfold base58_monero_encode
    rw [dif_pos (by omega)]
    rw [b58EncodeBlock_len l (by omega) hb, hsmall _ (by omega)]
  | succ N ih =>
    intro l hl hb
    unfold base58_monero_encode
    by_cases h8 : l.length ≤ 8
    · rw [dif_pos h8, b58EncodeBlock_len l h8 hb, hsmall _ h8]
    · rw [dif_neg h8]
      have hdl : (l.drop 8).length ≤ N := by
        simp only [List.length_drop]; omega
      have hdb : ∀ b ∈ l.drop 8, b < 256 := fun b hbm => hb b (List.mem_of_mem_drop hbm)
      rw [List.length_append, ih (l.drop 8) hdl hdb,
        b58EncodeBlock_len (l.take 8) (by simp) (fun b hbm => hb b (List.mem_of_mem_take hbm))]
      simp only [List.length_take, List.length_drop]
      rw [show min 8 l.length = 8 by omega, show b58BlockSize 8 = 11 from rfl]
      rw [show (l.length - 8) % 8 = l.length % 8 by omega]
      omega

/-! ## Claim C7 -/

/-- C7: `derive_address` maps network 0 to tag 0x12 and network 1 to tag
0x35, errors on every other network, and returns the Monero base58
encoding of the 69-byte payload `D ++ Keccak256(D)[0..4]` with
`D = tag :: pub_spend ++ pub_view`; the mainnet output is 95 characters. -/
theorem c7_derive_address (psk pvk : List Char) (a b : List Nat)
    (ha : hexDecode psk = some a) (hla : a.length = 32)
    (hb : hexDecode pvk = some b) (hlb : b.length = 32) :
    (derive_address psk pvk 0 =
      some (base58_monero_encode
        ((0x12 :: (a ++ b)) ++ (keccak256 (0x12 :: (a ++ b))).take 4))) ∧
    (derive_address psk pvk 1 =
      some (base58_monero_encode
        ((0x35 :: (a ++ b)) ++ (keccak256 (0x35 :: (a ++ b))).take 4))) ∧
    (∀ n, n ≠ 0 → n ≠ 1 → derive_address psk pvk n = none) ∧
    ((0x12 :: (a ++ b)) ++ (keccak256 (0x12 :: (a ++ b))).take 4).length = 69 ∧
    (∀ out, derive_address psk pvk 0 = some out → out.length = 95) := by
  have hpay : ∀ tag : Nat,
      ((tag :: (a ++ b)) ++ (keccak256 (tag :: (a ++ b))).take 4).length = 69 := by
    intro tag
    simp only [List.length_append, List.length_cons, List.length_take, keccak256_len,
      hla, hlb]
    norm_num
  have haddr : ∀ tag : Nat, networkByte 0 = some tag →
      derive_address psk pvk 0 =
        some (base58_monero_encode
          ((tag :: (a ++ b)) ++ (keccak256 (tag :: (a ++ b))).take 4)) := by
    intro tag htag
    unfold derive_address
    rw [htag, ha, hb]
    rfl
  refine ⟨haddr 0x12 rfl, ?_, ?_, hpay 0x12, ?_⟩
  · unfold derive_address
    rw [show networkByte 1 = some 0x35 from rfl, ha, hb]
    rfl
  · intro n h0 h1
    match n with
    | 0 => exact absurd rfl h0
    | 1 => exact absurd rfl h1
    | n + 2 => rfl
  · intro out hout
    rw [haddr 0x12 rfl] at hout
    injection hout with hout
    subst hout
    have hbytes : ∀ x ∈ (0x12 :: (a ++ b)) ++ (keccak256 (0x12 :: (a ++ b))).take 4,
        x < 256 := by
      intro x hx
      simp only [List.mem_append, List.mem_cons] at hx
      rcases hx with (rfl | hx) | hx
      · omega
      · rcases hx with hx | hx
        · exact hexDecode_lt psk a ha x hx
        · exact hexDecode_lt pvk b hb x hx
      · exact keccak256_lt _ x (List.mem_of_mem_take hx)
    rw [base58_monero_encode_len 69 _ (le_of_eq (hpay 0x12)) hbytes, hpay 0x12]
    rfl

/-- The 32 zero bytes decoded from `sW64`. -/
def bW32 : List Nat := List.replicate 32 0

/-- C7 (witness): the theorem applied to concrete public keys. -/
theorem c7_witness :
    hexDecode sW64 = some bW32 ∧ bW32.length = 32 ∧
    derive_address sW64 sW64 0 =
      some (base58_monero_encode
        ((0x12 :: (bW32 ++ bW32)) ++ (keccak256 (0x12 :: (bW32 ++ bW32))).take 4)) ∧
    (∀ n, n ≠ 0 → n ≠ 1 → derive_address sW64 sW64 n = none) ∧
    (∀ out, derive_address sW64 sW64 0 = some out → out.length = 95) :=
  ⟨by decide, by decide,
    (c7_derive_address sW64 sW64 bW32 bW32 (by decide) (by decide) (by decide) (by decide)).1,
    (c7_derive_address sW64 sW64 bW32 bW32 (by decide) (by decide) (by decide)
      (by decide)).2.2.1,
    (c7_derive_address sW64 sW64 bW32 bW32 (by decide) (by decide) (by decide)
      (by decide)).2.2.2.2⟩
